import Mathlib

/-!
Shallow embedding of the hybrid-retrieval core of the ai_chatbot_RAG
repository:

* `src/hybrid_retriever.py` — `HybridRetriever._normalize_scores` and
  `HybridRetriever.retrieve` (scores modelled over `ℚ`; the embedding and
  BM25 primitives are external black boxes, so a query's per-chunk cosine
  and BM25 score arrays are taken as inputs);
* `src/ai_chatbot_RAG-main/document_processor.py` —
  `DocumentProcessor.create_chunks` (text as `List Char`, Python slice
  semantics with `ℤ` indices, loop modelled with explicit fuel because the
  source loop can in fact diverge);
* `src/ai_chatbot_RAG-main/semantic_query_expander.py` —
  `SemanticQueryExpander.expand_query` (the external LLM call is an
  `Option (List Char)` parameter: `none` = raised failure) and
  `SemanticQueryExpander.retrieve_with_expansion` (the injected retriever
  is a fallible function `Q → Except E (List RRm)`; the Python dict is an
  insertion-ordered association list, updates keep position).
-/

/-! ## Generic stable descending insertion sort

`results.sort(key=lambda x: x['hybrid_score'], reverse=True)` in Python is a
stable sort.  `insertDescBy` places an element before the first element whose
score is less than or equal to its own, which is the classic stable
descending insertion sort: it computes the same list as any stable
descending sort by the same key. -/

def insertDescBy {α : Type} (score : α → ℚ) (a : α) : List α → List α
  | [] => [a]
  | x :: xs => if score x ≤ score a then a :: x :: xs else x :: insertDescBy score a xs

def sortDescBy {α : Type} (score : α → ℚ) : List α → List α
  | [] => []
  | a :: l => insertDescBy score a (sortDescBy score l)

/-! ## `HybridRetriever._normalize_scores` (src/hybrid_retriever.py:78-99) -/

/-- Model of `np.min(scores)` for a non-empty list (0 as junk value for `[]`). -/
def scoresMin : List ℚ → ℚ
  | [] => 0
  | s :: rest => rest.foldr min s

/-- Model of `np.max(scores)` for a non-empty list (0 as junk value for `[]`). -/
def scoresMax : List ℚ → ℚ
  | [] => 0
  | s :: rest => rest.foldr max s

/-- The `1e-10` constant of `_normalize_scores`. -/
def epsNorm : ℚ := 1 / 10 ^ 10

/-- Model of `HybridRetriever._normalize_scores`: min-max normalisation with the
all-ones fallback when `max - min < 1e-10`. -/
def normalize_scores (scores : List ℚ) : List ℚ :=
  match scores with
  | [] => []
  | s :: rest =>
    let mn := scoresMin (s :: rest)
    let mx := scoresMax (s :: rest)
    if mx - mn < epsNorm then (s :: rest).map (fun _ => 1)
    else (s :: rest).map (fun x => (x - mn) / (mx - mn))

/-! ## `HybridRetriever.retrieve` (src/hybrid_retriever.py:101-151) -/

/-- One entry of the `results` list built by `retrieve`: the enumeration
index of the chunk (its position in `self.chunks`) together with the three
reported scores. -/
structure RR where
  idx : ℕ
  hybrid_score : ℚ
  cosine_score : ℚ
  bm25_score : ℚ
deriving DecidableEq

/-- The `for idx, chunk in enumerate(self.chunks)` filter loop of
`retrieve`: keep exactly the chunks with `hybrid_scores[idx] >= threshold`,
recording the enumeration index. -/
def mkResults (cw bw th : ℚ) : ℕ → List (ℚ × ℚ) → List RR
  | _, [] => []
  | i, (c, b) :: rest =>
    let h := cw * c + bw * b
    if th ≤ h then ⟨i, h, c, b⟩ :: mkResults cw bw th (i + 1) rest
    else mkResults cw bw th (i + 1) rest

/-- Model of `HybridRetriever.retrieve` after the external model calls: `cos` is the
cosine-similarity array of the query against each indexed chunk, `bm` the
raw BM25 array (same chunk order).  Normalise BM25, combine with the
weights, filter by threshold, stable-sort descending, truncate to `top_k`. -/
def retrieveCore (cos bm : List ℚ) (cw bw th : ℚ) (top_k : ℕ) : List RR :=
  (sortDescBy RR.hybrid_score
    (mkResults cw bw th 0 (cos.zip (normalize_scores bm)))).take top_k

/-- The only failure `retrieve` raises: the `ValueError` for an unbuilt
index (src/hybrid_retriever.py:112-113). -/
inductive RetrieveError where
  | notIndexed
deriving DecidableEq

/-- Model of `HybridRetriever.retrieve` including its not-indexed check: an empty
chunk set (empty per-chunk score arrays) is the unbuilt-index state. -/
def retrieveE (cos bm : List ℚ) (cw bw th : ℚ) (top_k : ℕ) :
    Except RetrieveError (List RR) :=
  if cos = [] then Except.error RetrieveError.notIndexed
  else Except.ok (retrieveCore cos bm cw bw th top_k)

/-! ## Text helpers shared by the chunker and the query expander -/

/-- Characters stripped by Python's `str.strip()` (whitespace). -/
def isPySpace (c : Char) : Bool :=
  c = ' ' || c = '\t' || c = '\n' || c = '\r'

/-- Python `s.strip()` on a character list. -/
def stripChars (l : List Char) : List Char :=
  ((l.dropWhile isPySpace).reverse.dropWhile isPySpace).reverse

/-! ## `SemanticQueryExpander.expand_query`
(src/ai_chatbot_RAG-main/semantic_query_expander.py:35-105)

The Groq chat-completion call is external: its outcome is a parameter of
type `Option (List Char)` — `none` models the call raising (any exception
lands in the `except` branch), `some content` models a returned message
content. -/

/-- The character set of `q.lstrip('0123456789.-•*) ')`. -/
def lstripSet : List Char :=
  ['0', '1', '2', '3', '4', '5', '6', '7', '8', '9', '.', '-', '•', '*', ')', ' ']

/-- Model of `dict.fromkeys` deduplication: keep the first occurrence of each
element, preserving order.  `seen` is the set of keys already inserted. -/
def dedupFirstAux {α : Type} [DecidableEq α] (seen : List α) : List α → List α
  | [] => []
  | x :: xs =>
    if x ∈ seen then dedupFirstAux seen xs
    else x :: dedupFirstAux (x :: seen) xs

/-- Model of `SemanticQueryExpander.expand_query query num_expansions` given the
outcome `svc` of the external LLM call. -/
def expand_query (query : List Char) (num_expansions : ℕ)
    (svc : Option (List Char)) : List (List Char) :=
  match svc with
  | none => [query]
  | some content =>
    let ls := (stripChars content).splitOn '\n'
    let ls := (ls.map stripChars).filter (fun q => q ≠ [])
    let ls := ls.map (fun q => stripChars (q.dropWhile (fun c => c ∈ lstripSet)))
    let ls := dedupFirstAux [] (ls.filter (fun q => q ≠ []))
    query :: ls.take num_expansions

/-! ## `SemanticQueryExpander.retrieve_with_expansion`
(src/ai_chatbot_RAG-main/semantic_query_expander.py:107-162)

The injected `retriever.retrieve(expanded_query, top_k=top_k_per_query)`
call is modelled as a function `Q → Except E (List RRm)`: `Except.error`
models the call raising (there is no `try` around it in the source, so an
error propagates out of the loop).  The Python dict `all_results` is an
insertion-ordered association list: a new key is appended, updating an
existing key keeps its position, and `.values()` reads off in that order. -/

/-- A query string. -/
abbrev Q : Type := List Char

/-- One element of a per-paraphrase `retriever.retrieve` result, reduced to
the fields the merge reads: `result['chunk']['id']` and
`result['hybrid_score']`. -/
structure RRm where
  chunk_id : ℕ
  hybrid_score : ℚ
deriving DecidableEq

/-- A merged result: the retained fields plus the `source_query` tag added
by the merge loop. -/
structure ERR where
  chunk_id : ℕ
  hybrid_score : ℚ
  source_query : Q
deriving DecidableEq

/-- Model of `chunk_id in all_results` and `all_results[chunk_id]` lookup. -/
def lookupA (id : ℕ) : List (ℕ × ERR) → Option ERR
  | [] => none
  | (k, v) :: rest => if k = id then some v else lookupA id rest

/-- Model of `all_results[chunk_id] = result` when the key is already present:
replace the value, keeping the key's position (Python dict semantics). -/
def updateA (id : ℕ) (v : ERR) : List (ℕ × ERR) → List (ℕ × ERR)
  | [] => []
  | (k, w) :: rest =>
    if k = id then (k, v) :: rest else (k, w) :: updateA id v rest

/-- The body of the inner `for result in results` loop: insert an unseen
chunk id (tagged with its source paraphrase), overwrite a seen one only on
a strictly higher `hybrid_score`. -/
def mergeStep (acc : List (ℕ × ERR)) (o : Q × RRm) : List (ℕ × ERR) :=
  let id := o.2.chunk_id
  match lookupA id acc with
  | none => acc ++ [(id, ⟨id, o.2.hybrid_score, o.1⟩)]
  | some old =>
    if old.hybrid_score < o.2.hybrid_score then
      updateA id ⟨id, o.2.hybrid_score, o.1⟩ acc
    else acc

/-- The outer `for expanded_query in expanded_queries` loop: retrieve for
each paraphrase and fold its results into `all_results`; a raising
retrieve call propagates out (no `try` in the source). -/
def mergeLoop {E : Type} (retr : Q → Except E (List RRm)) :
    List Q → List (ℕ × ERR) → Except E (List (ℕ × ERR))
  | [], acc => Except.ok acc
  | eq :: rest, acc =>
    match retr eq with
    | Except.error e => Except.error e
    | Except.ok rs =>
      mergeLoop retr rest (rs.foldl (fun a r => mergeStep a (eq, r)) acc)

/-- Model of `SemanticQueryExpander.retrieve_with_expansion`, taking the expanded
query list (the output of `expand_query`) and the injected retriever: run
the merge loop from the empty dict, then sort the dict values descending by
`hybrid_score` (Python's stable sort). -/
def retrieve_with_expansion {E : Type} (queries : List Q)
    (retr : Q → Except E (List RRm)) : Except E (List ERR) :=
  match mergeLoop retr queries [] with
  | Except.error e => Except.error e
  | Except.ok acc => Except.ok (sortDescBy ERR.hybrid_score (acc.map Prod.snd))

/-- The full pipeline of `retrieve_with_expansion` including the
`expand_query` call that produces the paraphrase list. -/
def retrieve_with_expansion_full {E : Type} (query : Q) (num_expansions : ℕ)
    (svc : Option (List Char)) (retr : Q → Except E (List RRm)) :
    Except E (List ERR) :=
  retrieve_with_expansion (expand_query query num_expansions svc) retr

/-- The result list the (successful) retrieve call for `eq` contributed. -/
def okResults {E : Type} (retr : Q → Except E (List RRm)) (eq : Q) : List RRm :=
  match retr eq with
  | Except.ok l => l
  | Except.error _ => []

/-- All (paraphrase, result) occurrences processed by the merge loop, in
processing order. -/
def allOccs {E : Type} (retr : Q → Except E (List RRm)) : List Q → List (Q × RRm)
  | [] => []
  | eq :: rest => (okResults retr eq).map (fun r => (eq, r)) ++ allOccs retr rest

/-! ## `DocumentProcessor.create_chunks`
(src/ai_chatbot_RAG-main/document_processor.py:69-136)

Text is a `List Char`; positions are integers (Python ints), slicing uses
Python's clamping semantics (a negative bound counts from the end). The
`while` loop of `create_chunks` is modelled with explicit fuel: the aux
function performs exactly the source loop's iterations, returning early
only when the fuel runs out.  This is necessary because the source loop
does not terminate on all inputs (see the C4 theorems below). -/

/-- Resolve a Python slice bound against a sequence of length `n`. -/
def pyIdx (n : ℕ) (i : ℤ) : ℕ :=
  if i < 0 then ((n : ℤ) + i).toNat else min i.toNat n

/-- Python `l[a:b]` (step 1). -/
def pySlice (l : List Char) (a b : ℤ) : List Char :=
  (l.take (pyIdx l.length b)).drop (pyIdx l.length a)

/-- Python `text.rfind(d ++ e)` for a two-character pattern: the greatest
position where the pattern matches, if any. -/
def rfind2 (l : List Char) (d e : Char) : Option ℕ :=
  ((List.range l.length).filter
    (fun p => (l[p]? == some d) && (l[p + 1]? == some e))).getLast?

/-- Model of `DocumentProcessor._find_sentence_boundary`: try each two-character
delimiter in the source's fixed order; on the first delimiter present,
return `rfind pos + len(delimiter) - 1 = pos + 1`. -/
def find_sentence_boundary (w : List Char) : Option ℕ :=
  match rfind2 w '.' ' ' with
  | some p => some (p + 1)
  | none =>
  match rfind2 w '!' ' ' with
  | some p => some (p + 1)
  | none =>
  match rfind2 w '?' ' ' with
  | some p => some (p + 1)
  | none =>
  match rfind2 w '.' '\n' with
  | some p => some (p + 1)
  | none =>
  match rfind2 w '!' '\n' with
  | some p => some (p + 1)
  | none =>
  match rfind2 w '?' '\n' with
  | some p => some (p + 1)
  | none => none

/-- The `end` computed by one iteration of the `create_chunks` loop from the
current `start`: `start + chunk_size`, snapped to a sentence boundary found
in the `±100` window when the raw edge falls strictly before the end of the
text. -/
def chunkEnd (txt : List Char) (chunk_size : ℕ) (start : ℤ) : ℤ :=
  let e0 : ℤ := start + (chunk_size : ℤ)
  if e0 < (txt.length : ℤ) then
    let ws : ℤ := max start (e0 - 100)
    let we : ℤ := min (txt.length : ℤ) (e0 + 100)
    match find_sentence_boundary (pySlice txt ws we) with
    | some se => ws + (se : ℤ) + 1
    | none => e0
  else e0

/-- The next value of `start` after one loop iteration:
`start = end - self.chunk_overlap`. -/
def chunkStep (txt : List Char) (chunk_size overlap : ℕ) (start : ℤ) : ℤ :=
  chunkEnd txt chunk_size start - (overlap : ℤ)

/-- A chunk as emitted by `create_chunks` (the `'id'`, `'text'`,
`'start_pos'`, `'end_pos'`, `'length'` dict). -/
structure Chunk where
  id : ℕ
  text : List Char
  start_pos : ℤ
  end_pos : ℤ
  len : ℕ
deriving DecidableEq

/-- The `while start < len(text)` loop of `create_chunks`, with fuel.
Each iteration computes the (possibly snapped) `end`, emits the stripped
slice if non-empty, advances `start = end - overlap`, and breaks when the
new `start >= len(text) - overlap`. -/
def createChunksAux (txt : List Char) (chunk_size overlap : ℕ) :
    ℕ → ℤ → ℕ → List Chunk
  | 0, _, _ => []
  | fuel + 1, start, cid =>
    if start < (txt.length : ℤ) then
      let e := chunkEnd txt chunk_size start
      let ctext := stripChars (pySlice txt start e)
      let emitted : List Chunk :=
        if ctext = [] then [] else [⟨cid, ctext, start, e, ctext.length⟩]
      let cid' := if ctext = [] then cid else cid + 1
      let start' := e - (overlap : ℤ)
      if (txt.length : ℤ) - (overlap : ℤ) ≤ start' then emitted
      else emitted ++ createChunksAux txt chunk_size overlap fuel start' cid'
    else []

/-- Model of `DocumentProcessor.create_chunks`.  The fuel `txt.length + 1` is enough
for every terminating run in which `start` strictly increases from 0 (at
most one iteration per character position); on inputs where the source loop
diverges the model returns the chunks of the first `txt.length + 1`
iterations. -/
def create_chunks (txt : List Char) (chunk_size overlap : ℕ) : List Chunk :=
  createChunksAux txt chunk_size overlap (txt.length + 1) 0 0

/-! ## Concrete data for witnesses and counterexamples -/

/-- A 130-character text: 98 `'a'`s, then `". "`, then 30 `'b'`s.  With
`chunk_size = 120`, `overlap = 100` the `create_chunks` loop maps
`start = 0` back to `start = 0` forever. -/
def txtLoop : List Char :=
  List.replicate 98 'a' ++ ['.', ' '] ++ List.replicate 30 'b'

/-- The 11-character text `"hello world"`. -/
def txtHello : List Char :=
  ['h', 'e', 'l', 'l', 'o', ' ', 'w', 'o', 'r', 'l', 'd']

/-- A 104-character text (`"a. "`, 96 `'b'`s, `"! "`, 3 `'c'`s).  With
`chunk_size = 101`, `overlap = 100` the first loop iteration snaps `end` to
3 (the `". "` at offset 1), so `start = end - overlap = -97` goes negative,
and the second iteration still emits a chunk — with negative offsets. -/
def txtNeg : List Char :=
  ['a', '.', ' '] ++ List.replicate 96 'b' ++ ['!', ' '] ++ List.replicate 3 'c'

/-- A retriever stub used by witnesses: two paraphrases, overlapping chunk
ids with different scores. -/
def retrDemo : Q → Except Unit (List RRm) := fun q =>
  if q = ['a'] then Except.ok [⟨0, 1⟩, ⟨1, 3⟩]
  else if q = ['b'] then Except.ok [⟨0, 2⟩]
  else Except.ok []

/-- A retriever stub whose two paraphrases return the same chunk id with
exactly equal scores. -/
def retrTie : Q → Except Unit (List RRm) := fun q =>
  if q = ['a'] then Except.ok [⟨0, 1⟩]
  else if q = ['b'] then Except.ok [⟨0, 1⟩]
  else Except.ok []

/-- A retriever stub whose second paraphrase raises. -/
def retrFail : Q → Except Unit (List RRm) := fun q =>
  if q = ['a'] then Except.ok [⟨0, 1⟩]
  else Except.error ()

/-- The merged output of `retrieve_with_expansion [['a'], ['b']] retrDemo`. -/
def demoOut : List ERR := [⟨1, 3, ['a']⟩, ⟨0, 2, ['b']⟩]

/-- The merged output of `retrieve_with_expansion [['a'], ['b']] retrTie`. -/
def tieOut : List ERR := [⟨0, 1, ['a']⟩]

/-- The combined ranking key of a stable descending sort by `score` of a
list whose `pos` values are strictly increasing: strictly larger score
first, ties by smaller `pos`. -/
def rankKey {α : Type} (score : α → ℚ) (pos : α → ℕ) (u v : α) : Prop :=
  score v < score u ∨ (score u = score v ∧ pos u < pos v)

/-- The invariant of the fan-out merge: after the loop has processed the
occurrence list `occs` (each element one `(source paraphrase, result)` pair
in processing order) into the dict `acc`:
keys are unique; each stored result's `chunk_id` is its key; every
processed occurrence's score is bounded by its key's stored score; every
processed occurrence's id has an entry; and each entry is exactly the first
occurrence attaining its (maximal) score, tag included. -/
structure MergeInv (occs : List (Q × RRm)) (acc : List (ℕ × ERR)) : Prop where
  keys_nodup : (acc.map Prod.fst).Nodup
  key_eq : ∀ p ∈ acc, (p : ℕ × ERR).2.chunk_id = p.1
  upper : ∀ p ∈ acc, ∀ o ∈ occs, (o : Q × RRm).2.chunk_id = (p : ℕ × ERR).1 →
    o.2.hybrid_score ≤ p.2.hybrid_score
  covers : ∀ o ∈ occs, ∃ p ∈ acc, (p : ℕ × ERR).1 = (o : Q × RRm).2.chunk_id
  attain : ∀ p ∈ acc, ∃ pre o post, occs = pre ++ o :: post ∧
    (o : Q × RRm).2.chunk_id = (p : ℕ × ERR).1 ∧
    o.2.hybrid_score = p.2.hybrid_score ∧ o.1 = p.2.source_query ∧
    ∀ o' ∈ pre, (o' : Q × RRm).2.chunk_id = p.1 →
      o'.2.hybrid_score < p.2.hybrid_score

/-! ## Lemmas about the stable descending sort -/

theorem mem_insertDescBy {α : Type} (score : α → ℚ) (a b : α) (l : List α) :
    b ∈ insertDescBy score a l ↔ b = a ∨ b ∈ l := by
  induction l with
  | nil => simp [insertDescBy]
  | cons x xs ih =>
    by_cases h : score x ≤ score a
    · simp only [insertDescBy, if_pos h, List.mem_cons]
    · simp only [insertDescBy, if_neg h, List.mem_cons, ih]
      tauto

theorem mem_sortDescBy {α : Type} (score : α → ℚ) (b : α) (l : List α) :
    b ∈ sortDescBy score l ↔ b ∈ l := by
  induction l with
  | nil => simp [sortDescBy]
  | cons x xs ih =>
    simp only [sortDescBy, mem_insertDescBy, ih, List.mem_cons]

theorem perm_insertDescBy {α : Type} (score : α → ℚ) (a : α) (l : List α) :
    List.Perm (insertDescBy score a l) (a :: l) := by
  induction l with
  | nil => simp [insertDescBy]
  | cons x xs ih =>
    by_cases h : score x ≤ score a
    · simp [insertDescBy, h]
    · simp only [insertDescBy, if_neg h]
      exact ((ih.cons x).trans (List.Perm.swap a x xs))

theorem perm_sortDescBy {α : Type} (score : α → ℚ) (l : List α) :
    List.Perm (sortDescBy score l) l := by
  induction l with
  | nil => simp [sortDescBy]
  | cons x xs ih =>
    exact (perm_insertDescBy score x (sortDescBy score xs)).trans (ih.cons x)

theorem sorted_insertDescBy {α : Type} (score : α → ℚ) (a : α) (l : List α)
    (hl : l.Pairwise (fun u v => score v ≤ score u)) :
    (insertDescBy score a l).Pairwise (fun u v => score v ≤ score u) := by
  induction l with
  | nil => simp [insertDescBy]
  | cons x xs ih =>
    rcases List.pairwise_cons.1 hl with ⟨hx, hxs⟩
    by_cases h : score x ≤ score a
    · simp only [insertDescBy, if_pos h]
      refine List.pairwise_cons.2 ⟨?_, hl⟩
      intro b hb
      rcases List.mem_cons.1 hb with rfl | hb
      · exact h
      · exact le_trans (hx b hb) h
    · simp only [insertDescBy, if_neg h]
      refine List.pairwise_cons.2 ⟨?_, ih hxs⟩
      intro b hb
      rcases (mem_insertDescBy score a b xs).1 hb with rfl | hb
      · exact le_of_lt (lt_of_not_le h)
      · exact hx b hb

theorem sorted_sortDescBy {α : Type} (score : α → ℚ) (l : List α) :
    (sortDescBy score l).Pairwise (fun u v => score v ≤ score u) := by
  induction l with
  | nil => simp [sortDescBy]
  | cons x xs ih => exact sorted_insertDescBy score x (sortDescBy score xs) ih

theorem rankKey_insertDescBy {α : Type} (score : α → ℚ) (pos : α → ℕ)
    (a : α) (l : List α)
    (hK : l.Pairwise (rankKey score pos))
    (hS : l.Pairwise (fun u v => score v ≤ score u))
    (hpos : ∀ b ∈ l, pos a < pos b) :
    (insertDescBy score a l).Pairwise (rankKey score pos) := by
  induction l with
  | nil => simp [insertDescBy]
  | cons x xs ih =>
    rcases List.pairwise_cons.1 hK with ⟨hKx, hKxs⟩
    rcases List.pairwise_cons.1 hS with ⟨hSx, hSxs⟩
    by_cases h : score x ≤ score a
    · simp only [insertDescBy, if_pos h]
      refine List.pairwise_cons.2 ⟨?_, hK⟩
      intro b hb
      have hble : score b ≤ score a := by
        rcases List.mem_cons.1 hb with rfl | hb
        · exact h
        · exact le_trans (hSx b hb) h
      rcases lt_or_eq_of_le hble with hlt | heq
      · exact Or.inl hlt
      · exact Or.inr ⟨heq.symm, hpos b hb⟩
    · simp only [insertDescBy, if_neg h]
      refine List.pairwise_cons.2 ⟨?_, ?_⟩
      · intro b hb
        rcases (mem_insertDescBy score a b xs).1 hb with rfl | hb
        · exact Or.inl (lt_of_not_le h)
        · exact hKx b hb
      · exact ih hKxs hSxs (fun b hb => hpos b (List.mem_cons_of_mem x hb))

theorem rankKey_sortDescBy {α : Type} (score : α → ℚ) (pos : α → ℕ)
    (l : List α) (hl : l.Pairwise (fun u v => pos u < pos v)) :
    (sortDescBy score l).Pairwise (rankKey score pos) := by
  induction l with
  | nil => simp [sortDescBy]
  | cons x xs ih =>
    rcases List.pairwise_cons.1 hl with ⟨hx, hxs⟩
    refine rankKey_insertDescBy score pos x (sortDescBy score xs)
      (ih hxs) (sorted_sortDescBy score xs) ?_
    intro b hb
    exact hx b ((mem_sortDescBy score b xs).1 hb)

/-! ## Lemmas about the `retrieve` filter loop -/

theorem mkResults_threshold (cw bw th : ℚ) (i : ℕ) (l : List (ℚ × ℚ)) :
    ∀ r ∈ mkResults cw bw th i l, th ≤ r.hybrid_score := by
  induction l generalizing i with
  | nil => simp [mkResults]
  | cons p rest ih =>
    obtain ⟨c, b⟩ := p
    by_cases h : th ≤ cw * c + bw * b
    · simp only [mkResults, if_pos h]
      intro r hr
      rcases List.mem_cons.1 hr with rfl | hr
      · exact h
      · exact ih (i + 1) r hr
    · simp only [mkResults, if_neg h]
      exact ih (i + 1)

theorem mkResults_idx_ge (cw bw th : ℚ) (i : ℕ) (l : List (ℚ × ℚ)) :
    ∀ r ∈ mkResults cw bw th i l, i ≤ r.idx := by
  induction l generalizing i with
  | nil => simp [mkResults]
  | cons p rest ih =>
    obtain ⟨c, b⟩ := p
    by_cases h : th ≤ cw * c + bw * b
    · simp only [mkResults, if_pos h]
      intro r hr
      rcases List.mem_cons.1 hr with rfl | hr
      · exact le_refl i
      · exact le_trans (Nat.le_succ i) (ih (i + 1) r hr)
    · simp only [mkResults, if_neg h]
      intro r hr
      exact le_trans (Nat.le_succ i) (ih (i + 1) r hr)

theorem mkResults_pairwise_idx (cw bw th : ℚ) (i : ℕ) (l : List (ℚ × ℚ)) :
    (mkResults cw bw th i l).Pairwise (fun u v => u.idx < v.idx) := by
  induction l generalizing i with
  | nil => simp [mkResults]
  | cons p rest ih =>
    obtain ⟨c, b⟩ := p
    by_cases h : th ≤ cw * c + bw * b
    · simp only [mkResults, if_pos h]
      refine List.pairwise_cons.2 ⟨?_, ih (i + 1)⟩
      intro r hr
      exact lt_of_lt_of_le (Nat.lt_succ_self i) (mkResults_idx_ge cw bw th (i + 1) rest r hr)
    · simp only [mkResults, if_neg h]
      exact ih (i + 1)

/-- C1: with a non-empty indexed chunk set, `retrieve` succeeds (an empty
result list is a valid non-error outcome), every returned result's hybrid
score clears the threshold (nothing strictly below it survives the filter),
the results are sorted in descending hybrid-score order with ties broken by
original chunk position, and at most `top_k` results are returned. -/
theorem retrieve_filter_sort_truncate (cos bm : List ℚ) (cw bw th : ℚ)
    (top_k : ℕ) (h : cos ≠ []) :
    ∃ out, retrieveE cos bm cw bw th top_k = Except.ok out ∧
      (∀ r ∈ out, th ≤ r.hybrid_score) ∧
      out.Pairwise (rankKey RR.hybrid_score RR.idx) ∧
      out.length ≤ top_k := by
  refine ⟨retrieveCore cos bm cw bw th top_k, ?_, ?_, ?_, ?_⟩
  · simp [retrieveE, h]
  · intro r hr
    have hr1 : r ∈ sortDescBy RR.hybrid_score
        (mkResults cw bw th 0 (cos.zip (normalize_scores bm))) :=
      List.mem_of_mem_take hr
    have hr2 := (mem_sortDescBy RR.hybrid_score r _).1 hr1
    exact mkResults_threshold cw bw th 0 _ r hr2
  · exact List.Pairwise.sublist (List.take_sublist _ _)
      (rankKey_sortDescBy RR.hybrid_score RR.idx _
        (mkResults_pairwise_idx cw bw th 0 _))
  · exact List.length_take_le _ _

/-- Witness for C1 at a concrete two-chunk index. -/
theorem retrieve_filter_sort_truncate_witness :
    ([1, 0] : List ℚ) ≠ [] ∧
    ∃ out, retrieveE [1, 0] [2, 1] (7/10) (3/10) (1/2) 5 = Except.ok out ∧
      (∀ r ∈ out, (1/2 : ℚ) ≤ r.hybrid_score) ∧
      out.Pairwise (rankKey RR.hybrid_score RR.idx) ∧
      out.length ≤ 5 :=
  ⟨by decide, retrieve_filter_sort_truncate [1, 0] [2, 1] (7/10) (3/10) (1/2) 5 (by decide)⟩

/-! ## Lemmas about min-max normalisation -/

theorem foldr_min_le (s : ℚ) (l : List ℚ) : ∀ x ∈ s :: l, l.foldr min s ≤ x := by
  induction l with
  | nil =>
    intro x hx
    rcases List.mem_cons.1 hx with rfl | hx
    · exact le_refl x
    · simp at hx
  | cons a rest ih =>
    intro x hx
    have hfold : (a :: rest).foldr min s = min a (rest.foldr min s) := rfl
    rcases List.mem_cons.1 hx with rfl | hx
    · rw [hfold]
      exact le_trans (min_le_right _ _) (ih x (List.mem_cons_self x rest))
    · rcases List.mem_cons.1 hx with rfl | hx
      · rw [hfold]; exact min_le_left _ _
      · rw [hfold]
        exact le_trans (min_le_right _ _) (ih x (List.mem_cons_of_mem s hx))

theorem le_foldr_max (s : ℚ) (l : List ℚ) : ∀ x ∈ s :: l, x ≤ l.foldr max s := by
  induction l with
  | nil =>
    intro x hx
    rcases List.mem_cons.1 hx with rfl | hx
    · exact le_refl x
    · simp at hx
  | cons a rest ih =>
    intro x hx
    have hfold : (a :: rest).foldr max s = max a (rest.foldr max s) := rfl
    rcases List.mem_cons.1 hx with rfl | hx
    · rw [hfold]
      exact le_trans (ih x (List.mem_cons_self x rest)) (le_max_right _ _)
    · rcases List.mem_cons.1 hx with rfl | hx
      · rw [hfold]; exact le_max_left _ _
      · rw [hfold]
        exact le_trans (ih x (List.mem_cons_of_mem s hx)) (le_max_right _ _)

theorem scoresMin_le (l : List ℚ) (h : l ≠ []) : ∀ x ∈ l, scoresMin l ≤ x := by
  match l with
  | [] => exact absurd rfl h
  | s :: rest => exact foldr_min_le s rest

theorem le_scoresMax (l : List ℚ) (h : l ≠ []) : ∀ x ∈ l, x ≤ scoresMax l := by
  match l with
  | [] => exact absurd rfl h
  | s :: rest => exact le_foldr_max s rest

/-- C3: on a non-empty score array, if `max - min < 1e-10` the normalised
array is all ones (a well-defined rational value for every chunk — no
division by the near-zero spread occurs); otherwise every entry is exactly
`(score - min) / (max - min)` and lies in `[0, 1]`. -/
theorem normalize_scores_minmax (scores : List ℚ) (h : scores ≠ []) :
    (scoresMax scores - scoresMin scores < epsNorm →
      normalize_scores scores = scores.map (fun _ => 1)) ∧
    (epsNorm ≤ scoresMax scores - scoresMin scores →
      normalize_scores scores =
        scores.map (fun x =>
          (x - scoresMin scores) / (scoresMax scores - scoresMin scores)) ∧
      ∀ y ∈ normalize_scores scores, 0 ≤ y ∧ y ≤ 1) := by
  match scores with
  | [] => exact absurd rfl h
  | s :: rest =>
    constructor
    · intro hlt
      simp only [normalize_scores, if_pos hlt]
    · intro hge
      have hnotlt : ¬ scoresMax (s :: rest) - scoresMin (s :: rest) < epsNorm :=
        not_lt_of_le hge
      have hpos : 0 < scoresMax (s :: rest) - scoresMin (s :: rest) :=
        lt_of_lt_of_le (by norm_num [epsNorm]) hge
      constructor
      · simp only [normalize_scores, if_neg hnotlt]
      · intro y hy
        simp only [normalize_scores, if_neg hnotlt, List.mem_map] at hy
        obtain ⟨x, hx, rfl⟩ := hy
        constructor
        · apply div_nonneg _ (le_of_lt hpos)
          have := scoresMin_le (s :: rest) (by simp) x hx
          linarith
        · rw [div_le_one hpos]
          have := le_scoresMax (s :: rest) (by simp) x hx
          linarith

/-- Witness for C3 at the concrete score arrays `[0, 1]` (spread `1`) and,
through the first conjunct, `[5, 5]`-like degenerate arrays are covered by
applying the theorem at `[5, 5]` in the other branch; here `[0, 1]`. -/
theorem normalize_scores_minmax_witness :
    ([0, 1] : List ℚ) ≠ [] ∧
    ((scoresMax [0, 1] - scoresMin [0, 1] < epsNorm →
        normalize_scores [0, 1] = ([0, 1] : List ℚ).map (fun _ => 1)) ∧
      (epsNorm ≤ scoresMax [0, 1] - scoresMin [0, 1] →
        normalize_scores [0, 1] =
          ([0, 1] : List ℚ).map (fun x =>
            (x - scoresMin [0, 1]) / (scoresMax [0, 1] - scoresMin [0, 1])) ∧
        ∀ y ∈ normalize_scores [0, 1], 0 ≤ y ∧ y ≤ 1)) :=
  ⟨by decide, normalize_scores_minmax [0, 1] (by decide)⟩

/-- C8 counterexample: `retrieve` called with `top_k = 0 < 1`, a negative
semantic weight (`-1`) and a threshold `2 ∉ [0, 1]` does not fail at all —
on a non-empty index it returns `ok []`, refuting the claim that invalid
parameters are rejected with an `InvalidParameters` failure before any
computation. -/
theorem retrieve_invalid_params_cex :
    retrieveE [1, 1] [0, 0] (-1) (3/10) 2 0 = Except.ok [] := by
  rfl

/-- C8 amended: `retrieve` performs no parameter validation whatsoever:
for every weights, threshold and `top_k` — valid or not — it succeeds on a
non-empty index; its only failure is the not-indexed `ValueError`. -/
theorem retrieve_no_validation (cos bm : List ℚ) (cw bw th : ℚ) (top_k : ℕ)
    (h : cos ≠ []) :
    ∃ out, retrieveE cos bm cw bw th top_k = Except.ok out := by
  exact ⟨retrieveCore cos bm cw bw th top_k, by simp [retrieveE, h]⟩

/-- Witness for the amended C8 at the invalid parameters of the
counterexample. -/
theorem retrieve_no_validation_witness :
    ([1, 1] : List ℚ) ≠ [] ∧
    ∃ out, retrieveE [1, 1] [0, 0] (-1) (3/10) 2 0 = Except.ok out :=
  ⟨by decide, retrieve_no_validation [1, 1] [0, 0] (-1) (3/10) 2 0 (by decide)⟩

/-! ## Lemmas about the chunking loop -/

theorem find_sentence_boundary_pos (w : List Char) (se : ℕ)
    (h : find_sentence_boundary w = some se) : 1 ≤ se := by
  unfold find_sentence_boundary at h
  repeat' split at h
  all_goals simp_all
  all_goals omega

theorem chunkEnd_gt (txt : List Char) (chunk_size : ℕ) (start : ℤ)
    (hcs : 1 ≤ chunk_size) : start < chunkEnd txt chunk_size start := by
  simp only [chunkEnd]
  split
  · split
    · rename_i se hse
      have h1 : start ≤ max start (start + (chunk_size : ℤ) - 100) := le_max_left _ _
      have h2 : (0 : ℤ) ≤ (se : ℤ) := Int.ofNat_nonneg se
      omega
    · omega
  · omega

theorem chunkEnd_progress (txt : List Char) (chunk_size overlap : ℕ) (start : ℤ)
    (hprog : overlap + 99 ≤ chunk_size) :
    start + (overlap : ℤ) + 1 ≤ chunkEnd txt chunk_size start := by
  have hcs : ((overlap : ℤ) + 99 ≤ (chunk_size : ℤ)) := by exact_mod_cast hprog
  simp only [chunkEnd]
  split
  · split
    · rename_i se hse
      have h1 : start + (chunk_size : ℤ) - 100 ≤ max start (start + (chunk_size : ℤ) - 100) :=
        le_max_right _ _
      have h2 : (1 : ℤ) ≤ (se : ℤ) := by
        exact_mod_cast find_sentence_boundary_pos _ se hse
      omega
    · omega
  · omega

theorem createChunksAux_inv (txt : List Char) (chunk_size overlap : ℕ)
    (hprog : overlap + 99 ≤ chunk_size) :
    ∀ (fuel : ℕ) (start : ℤ) (cid : ℕ),
      (∀ c ∈ createChunksAux txt chunk_size overlap fuel start cid,
        c.text ≠ [] ∧ c.start_pos < c.end_pos ∧ start ≤ c.start_pos ∧
          c.start_pos < (txt.length : ℤ)) ∧
      (createChunksAux txt chunk_size overlap fuel start cid).Pairwise
        (fun u v => u.start_pos < v.start_pos) := by
  intro fuel
  induction fuel with
  | zero => intro start cid; simp [createChunksAux]
  | succ n ih =>
    intro start cid
    by_cases hlt : start < (txt.length : ℤ)
    · have hgt : start < chunkEnd txt chunk_size start :=
        chunkEnd_gt txt chunk_size start (by omega)
      have hadv : start + 1 ≤ chunkEnd txt chunk_size start - (overlap : ℤ) := by
        have := chunkEnd_progress txt chunk_size overlap start hprog
        omega
      simp only [createChunksAux, if_pos hlt]
      set e := chunkEnd txt chunk_size start with he
      set ctext := stripChars (pySlice txt start e) with hct
      have hemit : ∀ c ∈ (if ctext = [] then ([] : List Chunk)
          else [⟨cid, ctext, start, e, ctext.length⟩]),
          c.text ≠ [] ∧ c.start_pos < c.end_pos ∧ start ≤ c.start_pos ∧
            c.start_pos < (txt.length : ℤ) := by
        split
        · simp
        · rename_i hne
          intro c hc
          rcases List.mem_singleton.1 hc with rfl
          exact ⟨hne, hgt, le_refl start, hlt⟩
      split
      · rename_i hbreak
        constructor
        · exact hemit
        · split
          · simp
          · simp
      · rename_i hbreak
        obtain ⟨ihmem, ihpw⟩ :=
          ih (e - (overlap : ℤ)) (if ctext = [] then cid else cid + 1)
        constructor
        · intro c hc
          rcases List.mem_append.1 hc with hc | hc
          · exact hemit c hc
          · obtain ⟨h1, h2, h3, h4⟩ := ihmem c hc
            exact ⟨h1, h2, by omega, h4⟩
        · rw [List.pairwise_append]
          refine ⟨?_, ihpw, ?_⟩
          · split
            · simp
            · simp
          · intro u hu v hv
            have hus : u.start_pos = start := by
              revert hu
              split
              · simp
              · intro hu
                rcases List.mem_singleton.1 hu with rfl
                rfl
            have hvs := (ihmem v hv).2.2.1
            omega
    · simp [createChunksAux, if_neg hlt]

set_option maxRecDepth 100000 in
/-- C4: the chunking loop does not terminate on all inputs with
`0 <= overlap < chunk_size`.  With `chunk_size = 120`, `overlap = 100` and
`txtLoop` (98 `'a'`s, `". "`, 30 `'b'`s, 130 characters), the loop state
`start = 0` steps back to `start = 0` (the sentence-boundary snap pulls
`end` to 100 and `start = end - overlap = 0`), while both the loop
condition `start < len(text)` and the negation of the break guard
`start >= len(text) - overlap` hold — so `create_chunks` loops forever,
re-emitting the same chunk. -/
theorem create_chunks_divergence :
    chunkStep txtLoop 120 100 0 = 0 ∧
    (0 : ℤ) < (txtLoop.length : ℤ) ∧
    ¬ ((txtLoop.length : ℤ) - (100 : ℤ) ≤ chunkStep txtLoop 120 100 0) := by
  decide

set_option maxRecDepth 100000 in
/-- C5 counterexample: three violations of the claimed invariant at
concrete inputs, each with `0 ≤ overlap < chunk_size`.  The stored
`end_pos` is the raw window end, not clamped to the text: on the
11-character `"hello world"` with the default `chunk_size = 500`,
`overlap = 100` the single emitted chunk records `end_pos = 500 > 11`.
With `chunk_size = 120`, `overlap = 100` on `txtLoop` the first three loop
iterations emit chunks whose `start_pos` sequence is `[0, 0, 0]` — not
strictly increasing.  And with `chunk_size = 101`, `overlap = 100` on
`txtNeg` the second loop iteration emits a chunk with
`start_pos = -97`, `end_pos = -3` — not character offsets into the source
at all. -/
theorem create_chunks_offsets_cex :
    (create_chunks txtHello 500 100).map Chunk.end_pos = [500] ∧
    (txtHello.length : ℤ) < 500 ∧
    (createChunksAux txtLoop 120 100 3 0 0).map Chunk.start_pos = [0, 0, 0] ∧
    ¬ ((createChunksAux txtLoop 120 100 3 0 0).Pairwise
        (fun u v => u.start_pos < v.start_pos)) ∧
    (createChunksAux txtNeg 101 100 2 0 0).map
        (fun c => (c.start_pos, c.end_pos)) = [(0, 3), (-97, -3)] ∧
    ¬ (∀ c ∈ createChunksAux txtNeg 101 100 2 0 0, 0 ≤ c.start_pos) := by
  decide

theorem createChunksAux_basic (txt : List Char) (chunk_size overlap : ℕ)
    (hcs : 1 ≤ chunk_size) :
    ∀ (fuel : ℕ) (start : ℤ) (cid : ℕ),
      ∀ c ∈ createChunksAux txt chunk_size overlap fuel start cid,
        c.text ≠ [] ∧ c.start_pos < c.end_pos ∧ c.start_pos < (txt.length : ℤ) := by
  intro fuel
  induction fuel with
  | zero => intro start cid; simp [createChunksAux]
  | succ n ih =>
    intro start cid
    by_cases hlt : start < (txt.length : ℤ)
    · have hgt : start < chunkEnd txt chunk_size start :=
        chunkEnd_gt txt chunk_size start hcs
      simp only [createChunksAux, if_pos hlt]
      set e := chunkEnd txt chunk_size start with he
      set ctext := stripChars (pySlice txt start e) with hct
      have hemit : ∀ c ∈ (if ctext = [] then ([] : List Chunk)
          else [⟨cid, ctext, start, e, ctext.length⟩]),
          c.text ≠ [] ∧ c.start_pos < c.end_pos ∧ c.start_pos < (txt.length : ℤ) := by
        split
        · simp
        · rename_i hne
          intro c hc
          rcases List.mem_singleton.1 hc with rfl
          exact ⟨hne, hgt, hlt⟩
      split
      · exact hemit
      · intro c hc
        rcases List.mem_append.1 hc with hc | hc
        · exact hemit c hc
        · exact ih (e - (overlap : ℤ)) (if ctext = [] then cid else cid + 1) c hc
    · simp [createChunksAux, if_neg hlt]

/-- C5 amended: every chunk emitted by `create_chunks` has non-empty text,
`start_pos < end_pos`, and `start_pos < length` of the source; but the
stored offsets are otherwise unchecked: `end_pos` is the pre-clamp window
end and may exceed the text length, and `start_pos` may even be negative
(both shown in the counterexample), so in general the offsets are not
character offsets into the source.  Under the forward-progress condition
`chunk_size ≥ overlap + 99` — which holds for the defaults `500`/`100` —
every emitted `start_pos` additionally satisfies `0 ≤ start_pos` and the
`start_pos` values are strictly increasing across the sequence; for
smaller `chunk_size - overlap` the window start can regress (see C4 and
the counterexample). -/
theorem create_chunks_invariants (txt : List Char) (chunk_size overlap : ℕ)
    (hcs : 1 ≤ chunk_size) :
    (∀ c ∈ create_chunks txt chunk_size overlap,
      c.text ≠ [] ∧ c.start_pos < c.end_pos ∧ c.start_pos < (txt.length : ℤ)) ∧
    (overlap + 99 ≤ chunk_size →
      (∀ c ∈ create_chunks txt chunk_size overlap, 0 ≤ c.start_pos) ∧
      (create_chunks txt chunk_size overlap).Pairwise
        (fun u v => u.start_pos < v.start_pos)) := by
  constructor
  · exact createChunksAux_basic txt chunk_size overlap hcs (txt.length + 1) 0 0
  · intro hprog
    obtain ⟨hmem, hpw⟩ :=
      createChunksAux_inv txt chunk_size overlap hprog (txt.length + 1) 0 0
    exact ⟨fun c hc => (hmem c hc).2.2.1, hpw⟩

/-- Witness for the amended C5 on a concrete two-character text with
`chunk_size = 99`, `overlap = 0`. -/
theorem create_chunks_invariants_witness :
    1 ≤ 99 ∧
    ((∀ c ∈ create_chunks ['a', 'b'] 99 0,
      c.text ≠ [] ∧ c.start_pos < c.end_pos ∧
        c.start_pos < ((['a', 'b'] : List Char).length : ℤ)) ∧
    (0 + 99 ≤ 99 →
      (∀ c ∈ create_chunks ['a', 'b'] 99 0, 0 ≤ c.start_pos) ∧
      (create_chunks ['a', 'b'] 99 0).Pairwise
        (fun u v => u.start_pos < v.start_pos))) :=
  ⟨by decide, create_chunks_invariants ['a', 'b'] 99 0 (by decide)⟩

/-! ## Lemmas about query expansion -/

theorem dedupFirstAux_not_mem_seen {α : Type} [DecidableEq α] (l : List α) :
    ∀ seen : List α, ∀ x ∈ dedupFirstAux seen l, x ∉ seen := by
  induction l with
  | nil => intro seen x hx; simp [dedupFirstAux] at hx
  | cons a rest ih =>
    intro seen x hx
    by_cases ha : a ∈ seen
    · simp only [dedupFirstAux, if_pos ha] at hx
      exact ih seen x hx
    · simp only [dedupFirstAux, if_neg ha] at hx
      rcases List.mem_cons.1 hx with rfl | hx
      · exact ha
      · intro hxs
        exact ih (a :: seen) x hx (List.mem_cons_of_mem a hxs)

theorem dedupFirstAux_nodup {α : Type} [DecidableEq α] (l : List α) :
    ∀ seen : List α, (dedupFirstAux seen l).Nodup := by
  induction l with
  | nil => intro seen; simp [dedupFirstAux]
  | cons a rest ih =>
    intro seen
    by_cases ha : a ∈ seen
    · simp only [dedupFirstAux, if_pos ha]
      exact ih seen
    · simp only [dedupFirstAux, if_neg ha]
      refine List.nodup_cons.2 ⟨?_, ih (a :: seen)⟩
      intro hmem
      exact dedupFirstAux_not_mem_seen rest (a :: seen) a hmem
        (List.mem_cons_self a seen)

/-- C6 counterexample: if the external service returns the original query
itself as one of its lines (here service output `"a"` for query `"a"`),
`expand_query` returns `["a", "a"]` — the deduplication only applies to the
generated lines and never checks them against the prepended original, so
the output can contain duplicate entries. -/
theorem expand_query_duplicate_cex :
    expand_query ['a'] 5 (some ['a']) = [['a'], ['a']] ∧
    ¬ (expand_query ['a'] 5 (some ['a'])).Nodup := by
  decide

/-- C6 amended: for every query, every `num_expansions` and every outcome
of the external paraphrase service, `expand_query` returns (never raises) a
list whose first element is the query verbatim and whose length is at most
`num_expansions + 1`; the generated entries after the first are pairwise
distinct and non-empty, but the original query itself may be repeated among
them (see the counterexample); on service failure the result is exactly
`[query]`. -/
theorem expand_query_shape (query : List Char) (num_expansions : ℕ)
    (svc : Option (List Char)) :
    (expand_query query num_expansions svc).head? = some query ∧
    (expand_query query num_expansions svc).length ≤ num_expansions + 1 ∧
    (expand_query query num_expansions svc).tail.Nodup ∧
    expand_query query num_expansions none = [query] := by
  refine ⟨?_, ?_, ?_, rfl⟩
  · cases svc with
    | none => rfl
    | some content => rfl
  · cases svc with
    | none => simp [expand_query]
    | some content =>
      simp only [expand_query, List.length_cons]
      have := List.length_take_le num_expansions
        (dedupFirstAux []
          (((((stripChars content).splitOn '\n').map stripChars).filter
              (fun q => q ≠ [])).map
            (fun q => stripChars (q.dropWhile (fun c => c ∈ lstripSet))) |>.filter
            (fun q => q ≠ [])))
      omega
  · cases svc with
    | none => simp [expand_query]
    | some content =>
      simp only [expand_query, List.tail_cons]
      exact (dedupFirstAux_nodup _ []).sublist (List.take_sublist _ _)

/-! ## Lemmas about the fan-out merge -/

theorem lookupA_none_not_mem (id : ℕ) (acc : List (ℕ × ERR))
    (h : lookupA id acc = none) : id ∉ acc.map Prod.fst := by
  induction acc with
  | nil => simp
  | cons p rest ih =>
    obtain ⟨k, v⟩ := p
    by_cases hk : k = id
    · simp [lookupA, hk] at h
    · simp only [lookupA, if_neg hk] at h
      simp only [List.map_cons, List.mem_cons]
      push_neg
      exact ⟨fun hc => hk hc.symm, ih h⟩

theorem lookupA_some_mem (id : ℕ) (v : ERR) (acc : List (ℕ × ERR))
    (h : lookupA id acc = some v) : (id, v) ∈ acc := by
  induction acc with
  | nil => simp [lookupA] at h
  | cons p rest ih =>
    obtain ⟨k, w⟩ := p
    by_cases hk : k = id
    · simp only [lookupA, if_pos hk] at h
      subst hk
      rw [Option.some_inj] at h
      subst h
      exact List.mem_cons_self _ _
    · simp only [lookupA, if_neg hk] at h
      exact List.mem_cons_of_mem _ (ih h)

theorem lookupA_unique (id : ℕ) (v w : ERR) (acc : List (ℕ × ERR))
    (hnd : (acc.map Prod.fst).Nodup) (h : lookupA id acc = some v)
    (hm : (id, w) ∈ acc) : w = v := by
  induction acc with
  | nil => simp at hm
  | cons p rest ih =>
    obtain ⟨k, u⟩ := p
    rcases List.mem_cons.1 hm with heq | hm'
    · have hk : k = id := (Prod.mk.injEq _ _ _ _ ▸ heq.symm).1
      have hw : u = w := (Prod.mk.injEq _ _ _ _ ▸ heq.symm).2
      simp only [lookupA, if_pos hk] at h
      rw [Option.some_inj] at h
      rw [← hw, h]
    · have hidr : id ∈ rest.map Prod.fst :=
        List.mem_map.2 ⟨(id, w), hm', rfl⟩
      by_cases hk : k = id
      · subst hk
        have := (List.nodup_cons.1 (List.map_cons _ _ _ ▸ hnd)).1
        exact absurd hidr this
      · simp only [lookupA, if_neg hk] at h
        exact ih (List.nodup_cons.1 (List.map_cons _ _ _ ▸ hnd)).2 h hm'

theorem map_fst_updateA (id : ℕ) (v : ERR) (acc : List (ℕ × ERR)) :
    (updateA id v acc).map Prod.fst = acc.map Prod.fst := by
  induction acc with
  | nil => rfl
  | cons p rest ih =>
    obtain ⟨k, w⟩ := p
    by_cases hk : k = id
    · simp [updateA, hk]
    · simp [updateA, hk, ih]

theorem mem_updateA_ne (id : ℕ) (v : ERR) (p : ℕ × ERR) (acc : List (ℕ × ERR))
    (hnd : (acc.map Prod.fst).Nodup) (h : p ∈ updateA id v acc) :
    p = (id, v) ∨ (p ∈ acc ∧ p.1 ≠ id) := by
  induction acc with
  | nil => simp [updateA] at h
  | cons q rest ih =>
    obtain ⟨k, w⟩ := q
    have hnd' := List.nodup_cons.1 (List.map_cons _ _ _ ▸ hnd)
    by_cases hk : k = id
    · subst hk
      simp only [updateA, if_pos rfl] at h
      rcases List.mem_cons.1 h with rfl | h'
      · exact Or.inl rfl
      · refine Or.inr ⟨List.mem_cons_of_mem _ h', ?_⟩
        intro hp1
        exact hnd'.1 (hp1 ▸ List.mem_map.2 ⟨p, h', rfl⟩)
    · simp only [updateA, if_neg hk] at h
      rcases List.mem_cons.1 h with rfl | h'
      · exact Or.inr ⟨List.mem_cons_self _ _, hk⟩
      · rcases ih hnd'.2 h' with h1 | ⟨h1, h2⟩
        · exact Or.inl h1
        · exact Or.inr ⟨List.mem_cons_of_mem _ h1, h2⟩

theorem mem_updateA_of_ne (id : ℕ) (v : ERR) (p : ℕ × ERR)
    (acc : List (ℕ × ERR)) (hp : p ∈ acc) (hne : p.1 ≠ id) :
    p ∈ updateA id v acc := by
  induction acc with
  | nil => simp at hp
  | cons q rest ih =>
    obtain ⟨k, w⟩ := q
    rcases List.mem_cons.1 hp with rfl | hp'
    · have hk : k ≠ id := hne
      simp only [updateA, if_neg hk]
      exact List.mem_cons_self _ _
    · by_cases hk : k = id
      · simp only [updateA, if_pos hk]
        exact List.mem_cons_of_mem _ hp'
      · simp only [updateA, if_neg hk]
        exact List.mem_cons_of_mem _ (ih hp')

theorem updateA_mem_self (id : ℕ) (v old : ERR) (acc : List (ℕ × ERR))
    (h : lookupA id acc = some old) : (id, v) ∈ updateA id v acc := by
  induction acc with
  | nil => simp [lookupA] at h
  | cons q rest ih =>
    obtain ⟨k, w⟩ := q
    by_cases hk : k = id
    · subst hk
      simp only [updateA, if_pos rfl]
      exact List.mem_cons_self _ _
    · simp only [lookupA, if_neg hk] at h
      simp only [updateA, if_neg hk]
      exact List.mem_cons_of_mem _ (ih h)

theorem mergeInv_step (done : List (Q × RRm)) (acc : List (ℕ × ERR))
    (o : Q × RRm) (inv : MergeInv done acc) :
    MergeInv (done ++ [o]) (mergeStep acc o) := by
  obtain ⟨q, r⟩ := o
  simp only [mergeStep]
  split
  · -- unseen chunk id: append a fresh entry
    rename_i hl
    have hid : r.chunk_id ∉ acc.map Prod.fst := lookupA_none_not_mem _ _ hl
    have hnokey : ∀ o' ∈ done, (o' : Q × RRm).2.chunk_id ≠ r.chunk_id := by
      intro o' ho' hceq
      obtain ⟨p, hp, hpk⟩ := inv.covers o' ho'
      have : r.chunk_id ∈ acc.map Prod.fst := by
        rw [← hceq, ← hpk]
        exact List.mem_map.2 ⟨p, hp, rfl⟩
      exact hid this
    refine ⟨?_, ?_, ?_, ?_, ?_⟩
    · rw [List.map_append]
      refine List.Nodup.append inv.keys_nodup (by simp) ?_
      intro a ha hb
      simp only [List.map_cons, List.map_nil, List.mem_singleton] at hb
      subst hb
      exact hid ha
    · intro p hp
      rcases List.mem_append.1 hp with hp | hp
      · exact inv.key_eq p hp
      · simp only [List.mem_singleton] at hp
        subst hp
        rfl
    · intro p hp o' ho' hc
      rcases List.mem_append.1 hp with hp | hp
      · rcases List.mem_append.1 ho' with ho' | ho'
        · exact inv.upper p hp o' ho' hc
        · simp only [List.mem_singleton] at ho'
          subst ho'
          have : r.chunk_id ∈ acc.map Prod.fst := by
            rw [hc]
            exact List.mem_map.2 ⟨p, hp, rfl⟩
          exact absurd this hid
      · simp only [List.mem_singleton] at hp
        subst hp
        rcases List.mem_append.1 ho' with ho' | ho'
        · exact absurd hc (hnokey o' ho')
        · simp only [List.mem_singleton] at ho'
          subst ho'
          exact le_refl _
    · intro o' ho'
      rcases List.mem_append.1 ho' with ho' | ho'
      · obtain ⟨p, hp, hpk⟩ := inv.covers o' ho'
        exact ⟨p, List.mem_append_left _ hp, hpk⟩
      · simp only [List.mem_singleton] at ho'
        subst ho'
        exact ⟨(r.chunk_id, ⟨r.chunk_id, r.hybrid_score, q⟩),
          List.mem_append_right _ (List.mem_singleton.2 rfl), rfl⟩
    · intro p hp
      rcases List.mem_append.1 hp with hp | hp
      · obtain ⟨pre, o0, post, heq, h1, h2, h3, h4⟩ := inv.attain p hp
        exact ⟨pre, o0, post ++ [(q, r)], by rw [heq]; simp, h1, h2, h3, h4⟩
      · simp only [List.mem_singleton] at hp
        subst hp
        refine ⟨done, (q, r), [], by simp, rfl, rfl, rfl, ?_⟩
        intro o' ho' hc
        exact absurd hc (hnokey o' ho')
  · -- seen chunk id
    rename_i old hl
    have hold : (r.chunk_id, old) ∈ acc := lookupA_some_mem _ _ _ hl
    have hupold : ∀ o' ∈ done, (o' : Q × RRm).2.chunk_id = r.chunk_id →
        o'.2.hybrid_score ≤ old.hybrid_score := by
      intro o' ho' hc
      exact inv.upper (r.chunk_id, old) hold o' ho' hc
    split
    · -- strictly higher score: overwrite in place
      rename_i hlt
      refine ⟨?_, ?_, ?_, ?_, ?_⟩
      · rw [map_fst_updateA]
        exact inv.keys_nodup
      · intro p hp
        rcases mem_updateA_ne _ _ _ _ inv.keys_nodup hp with rfl | ⟨hp', _⟩
        · rfl
        · exact inv.key_eq p hp'
      · intro p hp o' ho' hc
        rcases mem_updateA_ne _ _ _ _ inv.keys_nodup hp with rfl | ⟨hpacc, hpne⟩
        · rcases List.mem_append.1 ho' with ho' | ho'
          · exact le_of_lt (lt_of_le_of_lt (hupold o' ho' hc) hlt)
          · simp only [List.mem_singleton] at ho'
            subst ho'
            exact le_refl _
        · rcases List.mem_append.1 ho' with ho' | ho'
          · exact inv.upper p hpacc o' ho' hc
          · simp only [List.mem_singleton] at ho'
            subst ho'
            exact absurd hc.symm hpne
      · intro o' ho'
        rcases List.mem_append.1 ho' with ho' | ho'
        · obtain ⟨p, hp, hpk⟩ := inv.covers o' ho'
          by_cases hpe : p.1 = r.chunk_id
          · exact ⟨(r.chunk_id, ⟨r.chunk_id, r.hybrid_score, q⟩),
              updateA_mem_self _ _ _ _ hl, by rw [← hpk, hpe]⟩
          · exact ⟨p, mem_updateA_of_ne _ _ _ _ hp hpe, hpk⟩
        · simp only [List.mem_singleton] at ho'
          subst ho'
          exact ⟨(r.chunk_id, ⟨r.chunk_id, r.hybrid_score, q⟩),
            updateA_mem_self _ _ _ _ hl, rfl⟩
      · intro p hp
        rcases mem_updateA_ne _ _ _ _ inv.keys_nodup hp with rfl | ⟨hpacc, hpne⟩
        · refine ⟨done, (q, r), [], by simp, rfl, rfl, rfl, ?_⟩
          intro o' ho' hc
          exact lt_of_le_of_lt (hupold o' ho' hc) hlt
        · obtain ⟨pre, o0, post, heq, h1, h2, h3, h4⟩ := inv.attain p hpacc
          exact ⟨pre, o0, post ++ [(q, r)], by rw [heq]; simp, h1, h2, h3, h4⟩
    · -- not strictly higher: keep the existing entry
      rename_i hnlt
      have hle : r.hybrid_score ≤ old.hybrid_score := le_of_not_lt hnlt
      refine ⟨inv.keys_nodup, inv.key_eq, ?_, ?_, ?_⟩
      · intro p hp o' ho' hc
        rcases List.mem_append.1 ho' with ho' | ho'
        · exact inv.upper p hp o' ho' hc
        · simp only [List.mem_singleton] at ho'
          subst ho'
          have hpe : (r.chunk_id, p.2) = p := by
            rw [hc]
          have hmem : (r.chunk_id, p.2) ∈ acc := by
            rw [hpe]
            exact hp
          have h2 := lookupA_unique r.chunk_id old p.2 acc inv.keys_nodup hl hmem
          rw [h2]
          exact hle
      · intro o' ho'
        rcases List.mem_append.1 ho' with ho' | ho'
        · exact inv.covers o' ho'
        · simp only [List.mem_singleton] at ho'
          subst ho'
          exact ⟨(r.chunk_id, old), hold, rfl⟩
      · intro p hp
        obtain ⟨pre, o0, post, heq, h1, h2, h3, h4⟩ := inv.attain p hp
        exact ⟨pre, o0, post ++ [(q, r)], by rw [heq]; simp, h1, h2, h3, h4⟩

theorem mergeInv_base : MergeInv [] [] :=
  ⟨List.nodup_nil,
   fun p hp => (List.not_mem_nil p hp).elim,
   fun p hp => (List.not_mem_nil p hp).elim,
   fun o ho => (List.not_mem_nil o ho).elim,
   fun p hp => (List.not_mem_nil p hp).elim⟩

theorem mergeInv_foldl (occs : List (Q × RRm)) :
    ∀ (done : List (Q × RRm)) (acc : List (ℕ × ERR)), MergeInv done acc →
      MergeInv (done ++ occs) (List.foldl mergeStep acc occs) := by
  induction occs with
  | nil =>
    intro done acc inv
    simpa using inv
  | cons o rest ih =>
    intro done acc inv
    have h2 := ih (done ++ [o]) (mergeStep acc o) (mergeInv_step done acc o inv)
    simpa [List.append_assoc] using h2

theorem mergeLoop_ok {E : Type} (retr : Q → Except E (List RRm)) :
    ∀ (qs : List Q) (acc acc' : List (ℕ × ERR)),
      mergeLoop retr qs acc = Except.ok acc' →
      acc' = List.foldl mergeStep acc (allOccs retr qs) ∧
      ∀ eq ∈ qs, ∃ l, retr eq = Except.ok l := by
  intro qs
  induction qs with
  | nil =>
    intro acc acc' h
    simp only [mergeLoop, Except.ok.injEq] at h
    subst h
    simp [allOccs]
  | cons eq rest ih =>
    intro acc acc' h
    simp only [mergeLoop] at h
    cases hr : retr eq with
    | error e =>
      rw [hr] at h
      exact absurd h (by simp)
    | ok rs =>
      rw [hr] at h
      obtain ⟨h1, h2⟩ := ih _ acc' h
      refine ⟨?_, ?_⟩
      · rw [h1]
        have hok : okResults retr eq = rs := by simp [okResults, hr]
        simp only [allOccs, hok, List.foldl_append, List.foldl_map]
      · intro q hq
        rcases List.mem_cons.1 hq with rfl | hq
        · exact ⟨rs, hr⟩
        · exact h2 q hq

theorem rwe_ok_inv {E : Type} (queries : List Q)
    (retr : Q → Except E (List RRm)) (out : List ERR)
    (h : retrieve_with_expansion queries retr = Except.ok out) :
    ∃ acc, MergeInv (allOccs retr queries) acc ∧
      out = sortDescBy ERR.hybrid_score (acc.map Prod.snd) ∧
      ∀ eq ∈ queries, ∃ l, retr eq = Except.ok l := by
  unfold retrieve_with_expansion at h
  cases hm : mergeLoop retr queries [] with
  | error e =>
    rw [hm] at h
    exact absurd h (by simp)
  | ok acc =>
    rw [hm] at h
    simp only [Except.ok.injEq] at h
    obtain ⟨h1, h2⟩ := mergeLoop_ok retr queries [] acc hm
    refine ⟨acc, ?_, h.symm, h2⟩
    rw [h1]
    simpa using mergeInv_foldl (allOccs retr queries) [] [] mergeInv_base

theorem mem_allOccs {E : Type} (retr : Q → Except E (List RRm)) (qs : List Q)
    (o : Q × RRm) :
    o ∈ allOccs retr qs ↔ o.1 ∈ qs ∧ o.2 ∈ okResults retr o.1 := by
  obtain ⟨q0, r0⟩ := o
  induction qs with
  | nil => simp [allOccs]
  | cons q rest ih =>
    simp only [allOccs, List.mem_append, List.mem_map, ih, List.mem_cons,
      Prod.mk.injEq]
    constructor
    · rintro (⟨r, hr, rfl, rfl⟩ | ⟨h1, h2⟩)
      · exact ⟨Or.inl rfl, hr⟩
      · exact ⟨Or.inr h1, h2⟩
    · rintro ⟨rfl | h1, h2⟩
      · exact Or.inl ⟨r0, h2, rfl, rfl⟩
      · exact Or.inr ⟨h1, h2⟩

/-- C2: on every successful expanded-query retrieval, the merged output has
at most one result per chunk id; every occurrence of a chunk id in any
per-paraphrase retrieval scores at most the retained result (so where
scores differ, the strictly higher one is retained); the retained score and
`source_query` tag come from an actual occurrence produced by that tagged
paraphrase; and the output is sorted descending by `hybrid_score`. -/
theorem rwe_merge_best_score {E : Type} (queries : List Q)
    (retr : Q → Except E (List RRm)) (out : List ERR)
    (h : retrieve_with_expansion queries retr = Except.ok out) :
    (out.map ERR.chunk_id).Nodup ∧
    out.Pairwise (fun u v => v.hybrid_score ≤ u.hybrid_score) ∧
    (∀ e ∈ out, ∀ eq ∈ queries, ∀ l, retr eq = Except.ok l →
      ∀ r ∈ l, r.chunk_id = e.chunk_id → r.hybrid_score ≤ e.hybrid_score) ∧
    (∀ e ∈ out, ∃ eq ∈ queries, ∃ l, retr eq = Except.ok l ∧
      ∃ r ∈ l, r.chunk_id = e.chunk_id ∧ r.hybrid_score = e.hybrid_score ∧
        e.source_query = eq) := by
  obtain ⟨acc, inv, hout, hok⟩ := rwe_ok_inv queries retr out h
  refine ⟨?_, ?_, ?_, ?_⟩
  · have hperm : List.Perm (out.map ERR.chunk_id)
        ((acc.map Prod.snd).map ERR.chunk_id) := by
      rw [hout]
      exact (perm_sortDescBy ERR.hybrid_score (acc.map Prod.snd)).map _
    rw [hperm.nodup_iff]
    rw [List.map_map]
    have : acc.map (ERR.chunk_id ∘ Prod.snd) = acc.map Prod.fst :=
      List.map_congr_left (fun p hp => inv.key_eq p hp)
    rw [this]
    exact inv.keys_nodup
  · rw [hout]
    exact sorted_sortDescBy ERR.hybrid_score (acc.map Prod.snd)
  · intro e he eq hq l hl r hr hrid
    rw [hout] at he
    obtain ⟨p, hp, hpe⟩ :=
      List.mem_map.1 ((mem_sortDescBy ERR.hybrid_score e _).1 he)
    have hocc : (eq, r) ∈ allOccs retr queries := by
      rw [mem_allOccs]
      exact ⟨hq, by simp [okResults, hl, hr]⟩
    have := inv.upper p hp (eq, r) hocc (by rw [hrid, ← hpe, inv.key_eq p hp])
    rw [← hpe]
    exact this
  · intro e he
    rw [hout] at he
    obtain ⟨p, hp, hpe⟩ :=
      List.mem_map.1 ((mem_sortDescBy ERR.hybrid_score e _).1 he)
    obtain ⟨pre, o0, post, heq, h1, h2, h3, h4⟩ := inv.attain p hp
    have hocc : o0 ∈ allOccs retr queries := by
      rw [heq]
      exact List.mem_append_right _ (List.mem_cons_self _ _)
    obtain ⟨hq0, hr0⟩ := (mem_allOccs retr queries o0).1 hocc
    obtain ⟨l, hl⟩ := hok o0.1 hq0
    refine ⟨o0.1, hq0, l, hl, o0.2, ?_, ?_, ?_, ?_⟩
    · have : okResults retr o0.1 = l := by simp [okResults, hl]
      rw [← this]
      exact hr0
    · rw [h1, ← hpe, inv.key_eq p hp]
    · rw [h2, ← hpe]
    · rw [← hpe, ← h3]

/-- Witness for C2 with two paraphrases whose retrievals overlap on chunk
id `0` with different scores: the stronger occurrence (score `2`, from
paraphrase `"b"`) is retained and tagged accordingly. -/
theorem rwe_merge_best_score_witness :
    retrieve_with_expansion [['a'], ['b']] retrDemo = Except.ok demoOut ∧
    ((demoOut.map ERR.chunk_id).Nodup ∧
    demoOut.Pairwise (fun u v => v.hybrid_score ≤ u.hybrid_score) ∧
    (∀ e ∈ demoOut, ∀ eq ∈ [['a'], ['b']], ∀ l, retrDemo eq = Except.ok l →
      ∀ r ∈ l, r.chunk_id = e.chunk_id → r.hybrid_score ≤ e.hybrid_score) ∧
    (∀ e ∈ demoOut, ∃ eq ∈ [['a'], ['b']], ∃ l, retrDemo eq = Except.ok l ∧
      ∃ r ∈ l, r.chunk_id = e.chunk_id ∧ r.hybrid_score = e.hybrid_score ∧
        e.source_query = eq)) :=
  ⟨by rfl, rwe_merge_best_score [['a'], ['b']] retrDemo demoOut (by rfl)⟩

/-- C10: on every successful expanded-query retrieval, each retained
result's score and `source_query` tag come from the first occurrence (in
paraphrase processing order, `allOccs`) that attains its score: every
strictly earlier occurrence of the same chunk id scores strictly lower.
In particular, when two paraphrases produce the same chunk id with exactly
equal `hybrid_score`, the earlier paraphrase's occurrence and tag are kept
— a later equal-scoring occurrence never overwrites an earlier one. -/
theorem rwe_tie_keeps_first {E : Type} (queries : List Q)
    (retr : Q → Except E (List RRm)) (out : List ERR)
    (h : retrieve_with_expansion queries retr = Except.ok out) :
    ∀ e ∈ out, ∃ pre o post, allOccs retr queries = pre ++ o :: post ∧
      (o : Q × RRm).2.chunk_id = e.chunk_id ∧
      o.2.hybrid_score = e.hybrid_score ∧ o.1 = e.source_query ∧
      ∀ o' ∈ pre, (o' : Q × RRm).2.chunk_id = e.chunk_id →
        o'.2.hybrid_score < e.hybrid_score := by
  obtain ⟨acc, inv, hout, hok⟩ := rwe_ok_inv queries retr out h
  intro e he
  rw [hout] at he
  obtain ⟨p, hp, hpe⟩ :=
    List.mem_map.1 ((mem_sortDescBy ERR.hybrid_score e _).1 he)
  obtain ⟨pre, o0, post, heq, h1, h2, h3, h4⟩ := inv.attain p hp
  have hkey : p.1 = e.chunk_id := by
    rw [← hpe, inv.key_eq p hp]
  refine ⟨pre, o0, post, heq, ?_, ?_, ?_, ?_⟩
  · rw [h1, hkey]
  · rw [h2, hpe]
  · rw [h3, hpe]
  · intro o' ho' hc
    have := h4 o' ho' (by rw [hc, ← hkey])
    rw [← hpe]
    exact this

/-- Witness for C10: both paraphrases return chunk `0` with the equal score
`1`; the merged result keeps the first paraphrase's occurrence and tag. -/
theorem rwe_tie_keeps_first_witness :
    retrieve_with_expansion [['a'], ['b']] retrTie = Except.ok tieOut ∧
    (∀ e ∈ tieOut, ∃ pre o post,
      allOccs retrTie [['a'], ['b']] = pre ++ o :: post ∧
      (o : Q × RRm).2.chunk_id = e.chunk_id ∧
      o.2.hybrid_score = e.hybrid_score ∧ o.1 = e.source_query ∧
      ∀ o' ∈ pre, (o' : Q × RRm).2.chunk_id = e.chunk_id →
        o'.2.hybrid_score < e.hybrid_score) :=
  ⟨by rfl, rwe_tie_keeps_first [['a'], ['b']] retrTie tieOut (by rfl)⟩

theorem mergeLoop_error_of_mem {E : Type} (retr : Q → Except E (List RRm)) :
    ∀ (qs : List Q) (acc : List (ℕ × ERR)),
      (∃ q ∈ qs, ∃ e, retr q = Except.error e) →
      ∃ e', mergeLoop retr qs acc = Except.error e' := by
  intro qs
  induction qs with
  | nil =>
    intro acc h
    obtain ⟨q, hq, _⟩ := h
    simp at hq
  | cons eq rest ih =>
    intro acc h
    cases hr : retr eq with
    | error e =>
      exact ⟨e, by simp only [mergeLoop, hr]⟩
    | ok rs =>
      obtain ⟨q, hq, e, he⟩ := h
      rcases List.mem_cons.1 hq with rfl | hq
      · rw [hr] at he
        exact absurd he (by simp)
      · obtain ⟨e', he'⟩ :=
          ih (rs.foldl (fun a r => mergeStep a (eq, r)) acc) ⟨q, hq, e, he⟩
        exact ⟨e', by simp only [mergeLoop, hr, he']⟩

/-- C7 counterexample: with two paraphrases where the first retrieval
succeeds (chunk `0`) and the second raises, `retrieve_with_expansion`
propagates the failure and aborts: the successful first paraphrase's
results do not appear in any merged output, refuting skip-and-continue
isolation. -/
theorem rwe_failure_not_isolated_cex :
    retrieve_with_expansion [['a'], ['b']] retrFail = Except.error () := by
  rfl

/-- C7 amended: there is no per-paraphrase failure isolation — a failure of
the retrieve call for any paraphrase in the list aborts the whole
`retrieve_with_expansion` call with an error (the first failure
encountered), and the successful results of the other paraphrases are
discarded rather than merged. -/
theorem rwe_failure_aborts {E : Type} (queries : List Q)
    (retr : Q → Except E (List RRm)) (q : Q) (e : E)
    (hq : q ∈ queries) (hf : retr q = Except.error e) :
    ∃ e', retrieve_with_expansion queries retr = Except.error e' := by
  obtain ⟨e', he'⟩ := mergeLoop_error_of_mem retr queries [] ⟨q, hq, e, hf⟩
  exact ⟨e', by simp only [retrieve_with_expansion, he']⟩

/-- Witness for the amended C7 at the concrete failing retriever. -/
theorem rwe_failure_aborts_witness :
    ['b'] ∈ [['a'], ['b']] ∧ retrFail ['b'] = Except.error () ∧
    ∃ e', retrieve_with_expansion [['a'], ['b']] retrFail = Except.error e' :=
  ⟨by decide, by rfl,
    rwe_failure_aborts [['a'], ['b']] retrFail ['b'] () (by decide) (by rfl)⟩

/-- C9 counterexample: the merge is not order-independent.  With two
paraphrases both returning chunk `0` at the exactly equal score `1`,
processing order `["a", "b"]` tags the merged result with `"a"` while the
permuted order `["b", "a"]` tags it with `"b"` — the merged outputs are not
identical. -/
theorem rwe_order_dependent_cex :
    (([['a'], ['b']] : List Q).Perm [['b'], ['a']]) ∧
    retrieve_with_expansion [['a'], ['b']] retrTie ≠
      retrieve_with_expansion [['b'], ['a']] retrTie := by
  constructor
  · exact List.Perm.swap _ _ _
  · have h1 : retrieve_with_expansion [['a'], ['b']] retrTie =
        Except.ok [⟨0, 1, ['a']⟩] := by rfl
    have h2 : retrieve_with_expansion [['b'], ['a']] retrTie =
        Except.ok [⟨0, 1, ['b']⟩] := by rfl
    rw [h1, h2]
    intro hcontr
    have h3 : ([⟨0, 1, ['a']⟩] : List ERR) = [⟨0, 1, ['b']⟩] :=
      Except.ok.inj hcontr
    exact absurd h3 (by decide)

theorem mergeInv_keys_transfer (occs1 occs2 : List (Q × RRm))
    (acc1 acc2 : List (ℕ × ERR))
    (inv1 : MergeInv occs1 acc1) (inv2 : MergeInv occs2 acc2)
    (hsub : ∀ o ∈ occs1, o ∈ occs2) :
    ∀ k ∈ acc1.map Prod.fst, k ∈ acc2.map Prod.fst := by
  intro k hk
  obtain ⟨p, hp, rfl⟩ := List.mem_map.1 hk
  obtain ⟨pre, o0, post, heq, hkey, _, _, _⟩ := inv1.attain p hp
  have ho0 : o0 ∈ occs1 := by
    rw [heq]
    exact List.mem_append_right _ (List.mem_cons_self _ _)
  obtain ⟨p2, hp2, hp2k⟩ := inv2.covers o0 (hsub o0 ho0)
  exact List.mem_map.2 ⟨p2, hp2, by rw [hp2k, hkey]⟩

theorem mergeInv_transfer (occs1 occs2 : List (Q × RRm))
    (acc1 acc2 : List (ℕ × ERR))
    (inv1 : MergeInv occs1 acc1) (inv2 : MergeInv occs2 acc2)
    (hsub : ∀ o ∈ occs1, o ∈ occs2) (hsub' : ∀ o ∈ occs2, o ∈ occs1) :
    ∀ p ∈ acc1, ∃ p' ∈ acc2, (p' : ℕ × ERR).1 = (p : ℕ × ERR).1 ∧
      p'.2.hybrid_score = p.2.hybrid_score := by
  intro p hp
  obtain ⟨pre, o0, post, heq, h1, h2, _, _⟩ := inv1.attain p hp
  have ho0 : o0 ∈ occs1 := by
    rw [heq]
    exact List.mem_append_right _ (List.mem_cons_self _ _)
  obtain ⟨p2, hp2, hp2k⟩ := inv2.covers o0 (hsub o0 ho0)
  have hle1 : o0.2.hybrid_score ≤ p2.2.hybrid_score :=
    inv2.upper p2 hp2 o0 (hsub o0 ho0) hp2k.symm
  obtain ⟨pre2, o2, post2, heq2, g1, g2, _, _⟩ := inv2.attain p2 hp2
  have ho2 : o2 ∈ occs2 := by
    rw [heq2]
    exact List.mem_append_right _ (List.mem_cons_self _ _)
  have hle2 : o2.2.hybrid_score ≤ p.2.hybrid_score :=
    inv1.upper p hp o2 (hsub' o2 ho2) (by rw [g1, hp2k, h1])
  refine ⟨p2, hp2, by rw [hp2k, h1], ?_⟩
  refine le_antisymm ?_ ?_
  · rw [← g2]
    exact hle2
  · rw [← h2]
    exact hle1

/-- C9 amended: the fan-out merge is order-independent only at the level of
`(chunk_id, hybrid_score)` pairs: for every permutation of the paraphrase
list (with the same per-paraphrase retrievals), the merged outputs have the
same length and exactly the same chunk ids with the same (maximal) hybrid
scores.  The `source_query` tags and the output ordering can depend on the
processing order when scores tie exactly (see the counterexample), so the
merged sequences need not be identical. -/
theorem rwe_perm_scores_invariant {E : Type} (qs1 qs2 : List Q)
    (retr : Q → Except E (List RRm)) (out1 out2 : List ERR)
    (hperm : qs1.Perm qs2)
    (h1 : retrieve_with_expansion qs1 retr = Except.ok out1)
    (h2 : retrieve_with_expansion qs2 retr = Except.ok out2) :
    out1.length = out2.length ∧
    (∀ e ∈ out1, ∃ x ∈ out2, ERR.chunk_id x = e.chunk_id ∧
      ERR.hybrid_score x = e.hybrid_score) ∧
    (∀ e ∈ out2, ∃ x ∈ out1, ERR.chunk_id x = e.chunk_id ∧
      ERR.hybrid_score x = e.hybrid_score) := by
  obtain ⟨acc1, inv1, hout1, hok1⟩ := rwe_ok_inv qs1 retr out1 h1
  obtain ⟨acc2, inv2, hout2, hok2⟩ := rwe_ok_inv qs2 retr out2 h2
  have hsub12 : ∀ o ∈ allOccs retr qs1, o ∈ allOccs retr qs2 := by
    intro o ho
    rw [mem_allOccs] at ho ⊢
    exact ⟨hperm.mem_iff.1 ho.1, ho.2⟩
  have hsub21 : ∀ o ∈ allOccs retr qs2, o ∈ allOccs retr qs1 := by
    intro o ho
    rw [mem_allOccs] at ho ⊢
    exact ⟨hperm.mem_iff.2 ho.1, ho.2⟩
  refine ⟨?_, ?_, ?_⟩
  · have hk12 := mergeInv_keys_transfer _ _ _ _ inv1 inv2 hsub12
    have hk21 := mergeInv_keys_transfer _ _ _ _ inv2 inv1 hsub21
    have hfin : (acc1.map Prod.fst).toFinset = (acc2.map Prod.fst).toFinset := by
      ext k
      simp only [List.mem_toFinset]
      exact ⟨hk12 k, hk21 k⟩
    have hl1 : out1.length = acc1.length := by
      rw [hout1, (perm_sortDescBy ERR.hybrid_score _).length_eq, List.length_map]
    have hl2 : out2.length = acc2.length := by
      rw [hout2, (perm_sortDescBy ERR.hybrid_score _).length_eq, List.length_map]
    have hc1 : (acc1.map Prod.fst).toFinset.card = acc1.length := by
      rw [List.toFinset_card_of_nodup inv1.keys_nodup, List.length_map]
    have hc2 : (acc2.map Prod.fst).toFinset.card = acc2.length := by
      rw [List.toFinset_card_of_nodup inv2.keys_nodup, List.length_map]
    rw [hl1, hl2, ← hc1, ← hc2, hfin]
  · intro e he
    rw [hout1] at he
    obtain ⟨p, hp, hpe⟩ :=
      List.mem_map.1 ((mem_sortDescBy ERR.hybrid_score e _).1 he)
    obtain ⟨p2, hp2, hk, hs⟩ :=
      mergeInv_transfer _ _ _ _ inv1 inv2 hsub12 hsub21 p hp
    refine ⟨p2.2, ?_, ?_, ?_⟩
    · rw [hout2]
      exact (mem_sortDescBy ERR.hybrid_score _ _).2 (List.mem_map.2 ⟨p2, hp2, rfl⟩)
    · rw [inv2.key_eq p2 hp2, hk, ← hpe, inv1.key_eq p hp]
    · rw [hs, ← hpe]
  · intro e he
    rw [hout2] at he
    obtain ⟨p, hp, hpe⟩ :=
      List.mem_map.1 ((mem_sortDescBy ERR.hybrid_score e _).1 he)
    obtain ⟨p2, hp2, hk, hs⟩ :=
      mergeInv_transfer _ _ _ _ inv2 inv1 hsub21 hsub12 p hp
    refine ⟨p2.2, ?_, ?_, ?_⟩
    · rw [hout1]
      exact (mem_sortDescBy ERR.hybrid_score _ _).2 (List.mem_map.2 ⟨p2, hp2, rfl⟩)
    · rw [inv1.key_eq p2 hp2, hk, ← hpe, inv2.key_eq p hp]
    · rw [hs, ← hpe]

/-- Witness for the amended C9: permuting the two paraphrases of the
overlapping-retrieval example preserves the `(chunk_id, hybrid_score)`
content and length of the merged output. -/
theorem rwe_perm_scores_invariant_witness :
    retrieve_with_expansion [['a'], ['b']] retrDemo = Except.ok demoOut ∧
    retrieve_with_expansion [['b'], ['a']] retrDemo = Except.ok demoOut ∧
    (demoOut.length = demoOut.length ∧
    (∀ e ∈ demoOut, ∃ x ∈ demoOut, ERR.chunk_id x = e.chunk_id ∧
      ERR.hybrid_score x = e.hybrid_score) ∧
    (∀ e ∈ demoOut, ∃ x ∈ demoOut, ERR.chunk_id x = e.chunk_id ∧
      ERR.hybrid_score x = e.hybrid_score)) :=
  ⟨by rfl, by rfl,
    rwe_perm_scores_invariant [['a'], ['b']] [['b'], ['a']] retrDemo
      demoOut demoOut (List.Perm.swap _ _ _) (by rfl) (by rfl)⟩
